import Mathlib

/-
Verification of the directive lexer / key-event synthesizer and the
listening controller of tmc/righthand (Go).

The directive parser lives in main.go: the package-level regular expression
keyTapPattern, the helper extractModifiersAndKeyFromMatch, and the driver
simulateTyping.  Directives are ASCII strings; we model them as lists of
characters (Go indexes bytes, which coincides with characters on ASCII
input).  The fixed regular expression

  (open brace) ((?:[^close]+\+)*[^close]+) (close brace) (?:\+([A-Za-z1-9]+))? (?:[ ;])?

is embedded directly: on this pattern, Go regexp leftmost-first matching at
a position i succeeds iff the character at i is an opening brace and the
first closing brace after it is at distance at least two; group 1 is then
the run of non-closing-brace characters, group 2 (if the closing brace is
followed by a plus and at least one character from the class A-Z a-z 1-9)
is the maximal run from that class, and one trailing space or semicolon is
consumed when present.
-/

/-- The opening curly brace character. -/
def lbrace : Char := Char.ofNat 123

/-- The closing curly brace character. -/
def rbrace : Char := Char.ofNat 125

/-- Membership in the character class [A-Za-z1-9] of keyTapPattern.
Note that the digit 0 is not in the class. -/
def isKeyChar (c : Char) : Bool :=
  (65 ≤ c.toNat && c.toNat ≤ 90) || (97 ≤ c.toNat && c.toNat ≤ 122) ||
    (49 ≤ c.toNat && c.toNat ≤ 57)

/-- Membership in the trailing-separator class [ ;] of keyTapPattern. -/
def isSepChar (c : Char) : Bool := c == ' ' || c == ';'

/-- The index quadruple Go returns for one match of keyTapPattern:
s0 and s1 are match[0] and match[1] (the span of the whole match), g1s and
g1e are match[2] and match[3] (the span of the brace-internal group), and
g2 is the span match[4], match[5] of the optional trailing key group
(none encodes match[4] = -1). -/
structure RMatch where
  s0 : Nat
  s1 : Nat
  g1s : Nat
  g1e : Nat
  g2 : Option (Nat × Nat)
deriving DecidableEq, Repr

/-- The part of one keyTapPattern match that follows the closing brace:
given the match start i and the index j of the closing brace, consume the
optional +key group and the optional trailing separator. -/
def matchEnd (cs : List Char) (i j : Nat) : RMatch :=
  match cs.drop (j + 1) with
  | d :: _ =>
    if d = '+' then
      if ((cs.drop (j + 2)).takeWhile isKeyChar).length = 0 then
        ⟨i, j + 1, i + 1, j, none⟩
      else
        match cs.drop (j + 2 + ((cs.drop (j + 2)).takeWhile isKeyChar).length) with
        | c2 :: _ =>
            if isSepChar c2 = true then
              ⟨i, j + 2 + ((cs.drop (j + 2)).takeWhile isKeyChar).length + 1, i + 1, j,
                some (j + 2, j + 2 + ((cs.drop (j + 2)).takeWhile isKeyChar).length)⟩
            else
              ⟨i, j + 2 + ((cs.drop (j + 2)).takeWhile isKeyChar).length, i + 1, j,
                some (j + 2, j + 2 + ((cs.drop (j + 2)).takeWhile isKeyChar).length)⟩
        | [] =>
            ⟨i, j + 2 + ((cs.drop (j + 2)).takeWhile isKeyChar).length, i + 1, j,
              some (j + 2, j + 2 + ((cs.drop (j + 2)).takeWhile isKeyChar).length)⟩
    else if isSepChar d = true then ⟨i, j + 2, i + 1, j, none⟩
    else ⟨i, j + 1, i + 1, j, none⟩
  | [] => ⟨i, j + 1, i + 1, j, none⟩

/-- One attempted match of keyTapPattern anchored at position i: the
character there must be an opening brace, the group is the run of
non-closing-brace characters after it (at least one), and the closing
brace must exist (the run must stop short of the end of the string). -/
def matchAt (cs : List Char) (i : Nat) : Option RMatch :=
  match cs.drop i with
  | c :: _ =>
    if c = lbrace then
      if ((cs.drop (i + 1)).takeWhile (fun d => !(d == rbrace))).length = 0 then none
      else
        if i + 1 + ((cs.drop (i + 1)).takeWhile (fun d => !(d == rbrace))).length <
            cs.length then
          some (matchEnd cs i
            (i + 1 + ((cs.drop (i + 1)).takeWhile (fun d => !(d == rbrace))).length))
        else none
    else none
  | [] => none

/-- Successive non-overlapping leftmost matches, searching from position i,
with explicit fuel (every step advances the position, so fuel
cs.length + 1 from position 0 is enough). -/
def findAllAux (cs : List Char) : Nat → Nat → List RMatch
  | 0, _ => []
  | fuel + 1, i =>
    if i < cs.length then
      match matchAt cs i with
      | some m => m :: findAllAux cs fuel (max m.s1 (i + 1))
      | none => findAllAux cs fuel (i + 1)
    else []

/-- Go keyTapPattern.FindAllStringSubmatchIndex(text, -1). -/
def findAll (cs : List Char) : List RMatch := findAllAux cs (cs.length + 1) 0

/-- Go string slicing text[a:b]: defined when a le b le len, otherwise the
program panics (modelled as none). -/
def goSlice (cs : List Char) (a b : Nat) : Option (List Char) :=
  if a ≤ b ∧ b ≤ cs.length then some ((cs.drop a).take (b - a)) else none

/-- Total slice used where the indices are known to be in range
(they come from a returned match). -/
def sliceCL (cs : List Char) (a b : Nat) : List Char := (cs.drop a).take (b - a)

/-- The modifierMap table of extractModifiersAndKeyFromMatch. -/
def modifierMap (s : String) : Option String :=
  if s = "Command" then some "command"
  else if s = "Shift" then some "shift"
  else if s = "Option" then some "alt"
  else if s = "Control" then some "ctrl"
  else if s = "Tab" then some "tab"
  else if s = "Enter" then some "enter"
  else none

/-- Go map read modifierMap[s]: yields the zero value (the empty string)
when the name is absent. -/
def modifierMapD (s : String) : String := (modifierMap s).getD ""

/-- The modifier-resolution loop of extractModifiersAndKeyFromMatch: a
recognized name contributes its mapped value, an unrecognized name is
logged and skipped. -/
def resolveModifiers : List String → List String
  | [] => []
  | n :: rest =>
    match modifierMap n with
    | some k => k :: resolveModifiers rest
    | none => resolveModifiers rest

/-- strings.Split(text[match[2]:match[3]], "+"): the brace-internal names
of a match. -/
def modNames (cs : List Char) (m : RMatch) : List String :=
  ((sliceCL cs m.g1s m.g1e).splitOn '+').map (fun l => (⟨l⟩ : String))

/-- extractModifiersAndKeyFromMatch (main.go): returns the resolved
modifier list and the key.  When the trailing key group is absent the last
brace-internal name is removed from the modifier list and its table image
(empty when unrecognized) becomes the key. -/
def extractModifiersAndKeyFromMatch (cs : List Char) (m : RMatch) :
    List String × String :=
  let modifierKeys := modNames cs m
  match m.g2 with
  | some (a, b) => (resolveModifiers modifierKeys, (⟨sliceCL cs a b⟩ : String))
  | none =>
      (resolveModifiers modifierKeys.dropLast,
        modifierMapD (modifierKeys.getLastD ""))

/-- A synthesized input operation: robotgo.TypeStr text, or
robotgo.KeyTap key modifiers (a press).  keyTapWithModifiers always follows
a combo press with an unmodified press of the shift key. -/
inductive KeyOp
  | TypeLiteral (text : String)
  | PressCombo (modifiers : List String) (key : String)
deriving DecidableEq, Repr

/-- The loop body of simulateTyping over the remaining matches, carrying
lastIndex.  Mirrors the Go code: the literal before a match is typed only
when lastIndex differs from the match start (none records the panic of an
out-of-range slice), each match contributes the combo press and the
unconditional shift press, and lastIndex is advanced to match end plus
one.  After the last match the remaining text is typed when lastIndex is
still inside the string. -/
def simAux (cs : List Char) : List RMatch → Nat → Option (List KeyOp)
  | [], lastIndex =>
      if lastIndex < cs.length then
        some [KeyOp.TypeLiteral (⟨cs.drop lastIndex⟩ : String)]
      else some []
  | m :: rest, lastIndex =>
      let pre : Option (List KeyOp) :=
        if lastIndex ≠ m.s0 then
          match goSlice cs lastIndex m.s0 with
          | some l => some [KeyOp.TypeLiteral (⟨l⟩ : String)]
          | none => none
        else some []
      match pre with
      | none => none
      | some p =>
          let ex := extractModifiersAndKeyFromMatch cs m
          match simAux cs rest (m.s1 + 1) with
          | none => none
          | some ops =>
              some (p ++ KeyOp.PressCombo ex.1 ex.2 ::
                KeyOp.PressCombo [] "shift" :: ops)

/-- simulateTyping (main.go) as the sequence of key operations it hands to
the injector; none when the code would panic on an out-of-range slice. -/
def simulateTyping (cs : List Char) : Option (List KeyOp) :=
  simAux cs (findAll cs) 0

/-- The reconstruction the specification asserts: concatenate, in order,
the literal span typed before each combo group, the full matched text of
the combo group (which contains the consumed trailing separator), and the
final remainder span. -/
def reconAux (cs : List Char) : List RMatch → Nat → Option (List Char)
  | [], lastIndex =>
      some (if lastIndex < cs.length then cs.drop lastIndex else [])
  | m :: rest, lastIndex =>
      let pre : Option (List Char) :=
        if lastIndex ≠ m.s0 then goSlice cs lastIndex m.s0 else some []
      match pre with
      | none => none
      | some p =>
          match reconAux cs rest (m.s1 + 1) with
          | none => none
          | some r => some (p ++ sliceCL cs m.s0 m.s1 ++ r)

/-- Reconstruction of a directive from the spans the synthesizer uses,
with each combo-group span taken exactly as matched. -/
def reconstructAsStated (cs : List Char) : Option (List Char) :=
  reconAux cs (findAll cs) 0

/-- Reconstruction with each combo-group span extended by the one extra
character that simulateTyping skips (lastIndex is set to match end plus
one even when the separator was already inside the match). -/
def reconPlusAux (cs : List Char) : List RMatch → Nat → Option (List Char)
  | [], lastIndex =>
      some (if lastIndex < cs.length then cs.drop lastIndex else [])
  | m :: rest, lastIndex =>
      let pre : Option (List Char) :=
        if lastIndex ≠ m.s0 then goSlice cs lastIndex m.s0 else some []
      match pre with
      | none => none
      | some p =>
          match reconPlusAux cs rest (m.s1 + 1) with
          | none => none
          | some r =>
              some (p ++ sliceCL cs m.s0 (min (m.s1 + 1) cs.length) ++ r)

/-- Reconstruction of a directive with each combo-group span extended by
one following character when one exists. -/
def reconstructExtended (cs : List Char) : Option (List Char) :=
  reconPlusAux cs (findAll cs) 0

example : findAll "{Command}+t".data = [⟨0, 11, 1, 8, some (10, 11)⟩] := by decide

example : simulateTyping "{Command}+t".data =
    some [KeyOp.PressCombo ["command"] "t", KeyOp.PressCombo [] "shift"] := by decide

example : simulateTyping "cd ~".data = some [KeyOp.TypeLiteral "cd ~"] := by decide

example : simulateTyping "{Command+Shift}+d".data =
    some [KeyOp.PressCombo ["command", "shift"] "d", KeyOp.PressCombo [] "shift"] := by
  decide

example : simulateTyping "{Command}+t{Enter}".data = none := by decide

example : simulateTyping "{Command} ab".data =
    some [KeyOp.PressCombo [] "command", KeyOp.PressCombo [] "shift",
      KeyOp.TypeLiteral "b"] := by decide

/-
The listening controller (runMainLoop in main.go).  One goroutine owns the
variables listening, listeningTimeout and audioBuffer and serializes every
transition through a select over the toggle channel, the timer channel,
context cancellation, and a default branch that collects one second of
audio while listening.  We model the loop body as a transition function on
that state, driven by one event per select round:

  * toggle: a value received on app.listeningToggle;
  * timerFire g: a value received on the timer channel armed by the
    generation-g time.After call.  The variable listeningTimeout is
    rebound to a fresh channel each time listening starts, so a receive is
    only possible from the currently bound generation; a fire from any
    other generation is never observed by the select and is modelled as a
    no-op.  On a fire while listening, the code sends one toggle to the
    buffered channel, and the next select round consumes it before the
    default branch can run (select prefers ready channels), so the fire is
    modelled as performing that toggle directly;
  * tick samples: one default-branch round whose CollectAudioData call
    returned the given samples (modelled as abstract integer samples, the
    numeric sample type is irrelevant to the control flow);
  * tickErr: one default-branch round whose CollectAudioData call failed;
    the error is logged and the buffer is left unchanged.

The timer generation counter models the identity of the channel returned
by time.After; it increments exactly when listening starts.
-/

/-- One event observed by the select loop of runMainLoop. -/
inductive CEvent
  | toggle
  | timerFire (gen : Nat)
  | tick (samples : List Int)
  | tickErr
deriving DecidableEq

/-- The state owned by runMainLoop: the listening flag, the generation of
the currently bound inactivity-timer channel, and the audio buffer. -/
structure CState where
  listening : Bool
  timerGen : Nat
  buffer : List Int
deriving DecidableEq

/-- Initial state of runMainLoop: not listening, no samples. -/
def initState : CState := ⟨false, 0, []⟩

/-- One iteration of the select loop of runMainLoop. -/
def controllerStep (s : CState) : CEvent → CState
  | CEvent.toggle =>
      if s.listening then { s with listening := false }
      else { listening := true, timerGen := s.timerGen + 1, buffer := [] }
  | CEvent.timerFire g =>
      if g = s.timerGen ∧ s.listening = true then { s with listening := false }
      else s
  | CEvent.tick samples =>
      if s.listening then { s with buffer := s.buffer ++ samples } else s
  | CEvent.tickErr => s

/-- The state after running the loop on a whole event trace. -/
def runTrace (tr : List CEvent) : CState := tr.foldl controllerStep initState

/-- Number of Listening to Idle transitions performed along a trace. -/
def countL2I (s : CState) : List CEvent → Nat
  | [] => 0
  | e :: rest =>
      (if s.listening = true ∧ (controllerStep s e).listening = false then 1 else 0) +
        countL2I (controllerStep s e) rest

/-- One nanosecond-denominated second, Go time.Second. -/
def timeSecond : Nat := 1000000000

/-- DefaultTimeout (main package): the inactivity timeout armed on every
Idle to Listening transition, 30 * time.Second. -/
def DefaultTimeout : Nat := 30 * timeSecond

/-
The dispatcher (handleText in main.go): the message sequence sent to the
language model.
-/

/-- A few-shot example from the configuration (config.go). -/
structure FewShotExample where
  input : String
  output : String
deriving DecidableEq

/-- A named program with its ordered few-shot examples (config.go). -/
structure ProgramFewShotExamples where
  program : String
  examples : List FewShotExample
deriving DecidableEq

/-- A chat message of the sequence handleText builds: a system, human, or
AI message. -/
inductive ChatMessage
  | system (text : String)
  | human (text : String)
  | ai (text : String)
deriving DecidableEq

/-- The part of the systemPrompt template before the %v verb. -/
def systemPromptPre : String :=
  "You are an AI assistant that interprets transcribed voice input\nand translates it into commands or text inputs for various applications. \n\nYour current active program is "

/-- The part of the systemPrompt template after the %v verb. -/
def systemPromptPost : String :=
  ". Adjust your interpretation based on this context.\n\nWhen interpreting commands, please indicate modifier keys such as Command, Option, Shift, \nor Control using curly braces. For instance, use \x27{Command}+t\x27 for opening a new tab.\n\nWhen outputting a command with a modifier key, use Shift as a modifier instead of including an uppercase character.\n\nYour output will be used as keyboard input for the active application.\nReturn the input exactly as provided if you aren\x27t confident in your answer."

/-- fmt.Sprintf(systemPrompt, activeApp). -/
def systemPromptFor (activeApp : String) : String :=
  systemPromptPre ++ activeApp ++ systemPromptPost

/-- The inner loop of handleText: append one human and one AI message per
example, in order. -/
def appendExamples (msgs : List ChatMessage) : List FewShotExample → List ChatMessage
  | [] => msgs
  | e :: rest =>
      appendExamples (msgs ++ [ChatMessage.human e.input, ChatMessage.ai e.output]) rest

/-- The outer loop of handleText: skip programs whose name differs from the
active application name, append the examples of the others. -/
def appendProgramExamples (activeApp : String) (msgs : List ChatMessage) :
    List ProgramFewShotExamples → List ChatMessage
  | [] => msgs
  | p :: rest =>
      if p.program ≠ activeApp then appendProgramExamples activeApp msgs rest
      else appendProgramExamples activeApp (appendExamples msgs p.examples) rest

/-- The full message sequence handleText sends to the language model. -/
def buildMessages (programs : List ProgramFewShotExamples)
    (activeApp text : String) : List ChatMessage :=
  appendProgramExamples activeApp
      [ChatMessage.system (systemPromptFor activeApp)] programs ++
    [ChatMessage.human text]

/-- The ordered input/output pair list of one example list, as described by
the specification. -/
def examplePairs : List FewShotExample → List ChatMessage
  | [] => []
  | e :: rest => ChatMessage.human e.input :: ChatMessage.ai e.output :: examplePairs rest

/-- The few-shot block the specification describes: the pairs of every
configured program whose name equals the active application name under
exact, case-sensitive comparison. -/
def specFewShot (activeApp : String) : List ProgramFewShotExamples → List ChatMessage
  | [] => []
  | p :: rest =>
      if p.program = activeApp then examplePairs p.examples ++ specFewShot activeApp rest
      else specFewShot activeApp rest

/-- The message sequence as worded by the specification: one system
instruction parameterized by the active application name, then the ordered
few-shot pairs for that exact name, then the transcribed text as the final
user message. -/
def specMessages (programs : List ProgramFewShotExamples)
    (activeApp text : String) : List ChatMessage :=
  ChatMessage.system (systemPromptFor activeApp) ::
    (specFewShot activeApp programs ++ [ChatMessage.human text])

/- Auxiliary list lemmas. -/

theorem len_takeWhile_le {α : Type} (p : α → Bool) (l : List α) :
    (l.takeWhile p).length ≤ l.length := by
  induction l with
  | nil => simp
  | cons a t ih =>
      by_cases h : p a = true
      · simp [List.takeWhile, h]; omega
      · simp [List.takeWhile, h]

theorem takeWhile_append_all {α : Type} {p : α → Bool} (l₁ l₂ : List α)
    (h : ∀ a ∈ l₁, p a = true) :
    (l₁ ++ l₂).takeWhile p = l₁ ++ l₂.takeWhile p := by
  induction l₁ with
  | nil => simp
  | cons a t ih =>
      have ha : p a = true := h a (by simp)
      simp only [List.cons_append, List.takeWhile, ha, List.append_eq]
      rw [ih (fun b hb => h b (by simp [hb]))]

theorem drop_cons_lt {α : Type} {cs : List α} {k : Nat} {c : α} {t : List α}
    (h : cs.drop k = c :: t) : k < cs.length := by
  have hl := List.length_drop k cs
  rw [h] at hl
  simp at hl
  omega

theorem drop_len_append {α : Type} (l₁ l₂ : List α) (k : Nat) :
    (l₁ ++ l₂).drop (l₁.length + k) = l₂.drop k := by
  rw [← List.drop_drop, List.drop_left]

theorem take_len_append {α : Type} (l₁ l₂ : List α) : (l₁ ++ l₂).take l₁.length = l₁ :=
  List.take_left l₁ l₂

/- Bounds of every match returned by the embedded pattern: a match starts
where the search attempted it, ends strictly later, and ends within the
string. -/

theorem matchEnd_bounds (cs : List Char) (i j : Nat) (hij : i < j) (hj : j < cs.length) :
    (matchEnd cs i j).s0 = i ∧ i < (matchEnd cs i j).s1 ∧
      (matchEnd cs i j).s1 ≤ cs.length := by
  have hkw := len_takeWhile_le isKeyChar (cs.drop (j + 2))
  have hld := List.length_drop (j + 2) cs
  unfold matchEnd
  split
  next d t hd =>
    have hj1 : j + 1 < cs.length := drop_cons_lt hd
    by_cases hp : d = '+'
    · simp only [if_pos hp]
      by_cases h0 : ((cs.drop (j + 2)).takeWhile isKeyChar).length = 0
      · simp only [if_pos h0]; simp; omega
      · simp only [if_neg h0]
        split
        next c2 t2 hc2 =>
          have he := drop_cons_lt hc2
          by_cases hs : isSepChar c2 = true
          · simp only [if_pos hs]; simp; omega
          · simp only [if_neg hs]; simp; omega
        next hc2 => simp; omega
    · simp only [if_neg hp]
      by_cases hs : isSepChar d = true
      · simp only [if_pos hs]; simp; omega
      · simp only [if_neg hs]; simp; omega
  next hd => simp; omega

theorem matchAt_bounds {cs : List Char} {i : Nat} {m : RMatch}
    (h : matchAt cs i = some m) : m.s0 = i ∧ i < m.s1 ∧ m.s1 ≤ cs.length := by
  unfold matchAt at h
  split at h
  next c t hc =>
    by_cases hb : c = lbrace
    · rw [if_pos hb] at h
      by_cases h0 :
          ((cs.drop (i + 1)).takeWhile (fun d => !(d == rbrace))).length = 0
      · rw [if_pos h0] at h; cases h
      · rw [if_neg h0] at h
        by_cases hlen :
            i + 1 + ((cs.drop (i + 1)).takeWhile (fun d => !(d == rbrace))).length <
              cs.length
        · rw [if_pos hlen] at h
          injection h with h
          subst h
          exact matchEnd_bounds cs i _ (by omega) hlen
        · rw [if_neg hlen] at h; cases h
    · rw [if_neg hb] at h; cases h
  next hd => cases h

theorem findAllAux_valid (cs : List Char) :
    ∀ fuel i m, m ∈ findAllAux cs fuel i → m.s0 < m.s1 ∧ m.s1 ≤ cs.length := by
  intro fuel
  induction fuel with
  | zero => intro i m hm; simp [findAllAux] at hm
  | succ f ih =>
      intro i m hm
      unfold findAllAux at hm
      by_cases hi : i < cs.length
      · rw [if_pos hi] at hm
        cases hma : matchAt cs i with
        | none => rw [hma] at hm; exact ih _ _ hm
        | some m0 =>
            rw [hma] at hm
            rcases List.mem_cons.mp hm with h | h
            · subst h
              obtain ⟨h1, h2, h3⟩ := matchAt_bounds hma
              omega
            · exact ih _ _ h
      · rw [if_neg hi] at hm; simp at hm

theorem findAll_valid (cs : List Char) :
    ∀ m ∈ findAll cs, m.s0 < m.s1 ∧ m.s1 ≤ cs.length := by
  intro m hm
  exact findAllAux_valid cs _ _ _ hm

/- Gluing of adjacent spans, used for directive reconstruction. -/

theorem seg_glue (cs : List Char) (li s0 s1 : Nat)
    (h1 : li ≤ s0) (h2 : s0 < s1) (h3 : s1 ≤ cs.length) :
    sliceCL cs li s0 ++ sliceCL cs s0 (min (s1 + 1) cs.length) ++ cs.drop (s1 + 1) =
      cs.drop li := by
  rw [List.append_assoc]
  have hmid :
      sliceCL cs s0 (min (s1 + 1) cs.length) ++ cs.drop (s1 + 1) = cs.drop s0 := by
    by_cases hc : s1 + 1 ≤ cs.length
    · have hmin : min (s1 + 1) cs.length = s1 + 1 := by omega
      rw [hmin]
      unfold sliceCL
      have hdd : cs.drop (s1 + 1) = (cs.drop s0).drop (s1 + 1 - s0) := by
        rw [List.drop_drop]; congr 1; omega
      rw [hdd, List.take_append_drop]
    · have hmin : min (s1 + 1) cs.length = cs.length := by omega
      rw [hmin]
      unfold sliceCL
      have hdrop : cs.drop (s1 + 1) = [] := List.drop_eq_nil_of_le (by omega)
      have hl := List.length_drop s0 cs
      rw [hdrop, List.append_nil]
      exact List.take_of_length_le (by omega)
  rw [hmid]
  unfold sliceCL
  have hdd : cs.drop s0 = (cs.drop li).drop (s0 - li) := by
    rw [List.drop_drop]; congr 1; omega
  rw [hdd, List.take_append_drop]

theorem sliceCL_self (cs : List Char) (a : Nat) : sliceCL cs a a = [] := by
  simp [sliceCL]

/-- Whenever simulateTyping succeeds on a suffix of the match list, the
spans it uses (with each combo span extended by the one extra skipped
character) concatenate to exactly the rest of the directive. -/
theorem reconPlusAux_eq (cs : List Char) :
    ∀ ms : List RMatch, (∀ m ∈ ms, m.s0 < m.s1 ∧ m.s1 ≤ cs.length) →
      ∀ li, (simAux cs ms li).isSome = true →
        reconPlusAux cs ms li = some (cs.drop li) := by
  intro ms
  induction ms with
  | nil =>
      intro _ li _
      unfold reconPlusAux
      by_cases h : li < cs.length
      · rw [if_pos h]
      · rw [if_neg h, List.drop_eq_nil_of_le (by omega)]
  | cons m rest ih =>
      intro hv li hs
      obtain ⟨hm1, hm2⟩ := hv m (by simp)
      have hvr : ∀ m0 ∈ rest, m0.s0 < m0.s1 ∧ m0.s1 ≤ cs.length :=
        fun m0 h0 => hv m0 (by simp [h0])
      simp only [simAux] at hs
      simp only [reconPlusAux]
      by_cases hli : li = m.s0
      · rw [if_neg (show ¬li ≠ m.s0 by simp [hli])] at hs
        rw [if_neg (show ¬li ≠ m.s0 by simp [hli])]
        cases hrec : simAux cs rest (m.s1 + 1) with
        | none => rw [hrec] at hs; simp at hs
        | some ops =>
            rw [ih hvr _ (by rw [hrec]; rfl)]
            have hglue := seg_glue cs m.s0 m.s0 m.s1 (Nat.le_refl _) hm1 hm2
            rw [sliceCL_self, List.nil_append] at hglue
            show some (([] : List Char) ++
                sliceCL cs m.s0 (min (m.s1 + 1) cs.length) ++ cs.drop (m.s1 + 1)) =
              some (cs.drop li)
            rw [List.nil_append, hli, hglue]
      · rw [if_pos hli] at hs
        rw [if_pos hli]
        cases hgs : goSlice cs li m.s0 with
        | none => rw [hgs] at hs; simp at hs
        | some l =>
            rw [hgs] at hs
            have hrange : li ≤ m.s0 ∧ m.s0 ≤ cs.length := by
              by_contra hc
              unfold goSlice at hgs
              rw [if_neg hc] at hgs
              cases hgs
            have hl : l = sliceCL cs li m.s0 := by
              unfold goSlice at hgs
              rw [if_pos hrange] at hgs
              injection hgs with h
              exact h.symm
            cases hrec : simAux cs rest (m.s1 + 1) with
            | none => rw [hrec] at hs; simp at hs
            | some ops =>
                rw [ih hvr _ (by rw [hrec]; rfl)]
                subst hl
                show some (sliceCL cs li m.s0 ++
                    sliceCL cs m.s0 (min (m.s1 + 1) cs.length) ++ cs.drop (m.s1 + 1)) =
                  some (cs.drop li)
                rw [seg_glue cs li m.s0 m.s1 hrange.1 hm1 hm2]

/- A directive without an opening brace has no match. -/

theorem matchAt_none_of_no_lbrace {cs : List Char} (h : lbrace ∉ cs) (i : Nat) :
    matchAt cs i = none := by
  unfold matchAt
  split
  next c t hc =>
    have hmem : c ∈ cs := List.drop_subset i cs (by rw [hc]; simp)
    by_cases hb : c = lbrace
    · exact absurd (hb ▸ hmem) h
    · rw [if_neg hb]
  next hd => rfl

theorem findAllAux_none {cs : List Char} (h : lbrace ∉ cs) :
    ∀ fuel i, findAllAux cs fuel i = [] := by
  intro fuel
  induction fuel with
  | zero => intro i; rfl
  | succ f ih =>
      intro i
      unfold findAllAux
      by_cases hi : i < cs.length
      · rw [if_pos hi, matchAt_none_of_no_lbrace h i]
        exact ih _
      · rw [if_neg hi]

/-- Claim C1 counterexample: on the directive consisting of a combo group,
a space, and the literal text ab, the concatenation of the literal spans
the synthesizer types with the full combo-group matched texts (separator
included) does not reconstruct the input: the match consumes the
separator space, and the synthesizer then skips the character a as well
(lastIndex is set to match end plus one), typing only b.  The character a
is a dropped literal character other than the single consumed
separator. -/
theorem claim1_counterexample :
    reconstructAsStated "{Command} ab".data ≠ some ("{Command} ab".data) ∧
    reconstructAsStated "{Command} ab".data = some ("{Command} b".data) ∧
    simulateTyping "{Command} ab".data =
      some [KeyOp.PressCombo [] "command", KeyOp.PressCombo [] "shift",
        KeyOp.TypeLiteral "b"] := by decide

/-- Claim C1 (amended): after every combo group the synthesizer advances
past one character beyond the match, so besides the separator consumed by
the pattern one further literal character is dropped after each combo
group when one exists.  With each combo-group span extended by that one
extra character, the concatenation of the literal spans and the extended
combo spans reconstructs the original directive exactly, for every
directive on which synthesis succeeds. -/
theorem claim1_amended (cs : List Char) (h : (simulateTyping cs).isSome = true) :
    reconstructExtended cs = some cs := by
  have hr := reconPlusAux_eq cs (findAll cs) (findAll_valid cs) 0 h
  unfold reconstructExtended
  rw [hr, List.drop_zero]

theorem claim1_amended_witness :
    reconstructExtended "{Command} ab".data = some ("{Command} ab".data) :=
  claim1_amended "{Command} ab".data (by decide)

/-- Claim C2: on a directive in which one combo group is immediately
followed by another, with no character in between, the literal span
computed before the second match starts at the previous match end plus
one, which exceeds the second match start: the first match of
keyTapPattern on this input ends at index 11 and the second starts at
index 11, the Go slice text[12:11] is out of range, and the synthesizer
produces no well-defined operation sequence. -/
theorem claim2_adjacent_groups_panic :
    findAll "{Command}+t{Enter}".data =
      [⟨0, 11, 1, 8, some (10, 11)⟩, ⟨11, 18, 12, 17, none⟩] ∧
    goSlice "{Command}+t{Enter}".data 12 11 = none ∧
    simulateTyping "{Command}+t{Enter}".data = none := by decide

/-- Claim C5 counterexample: the empty directive contains no combo group,
yet the synthesizer yields no operation at all rather than one TypeLiteral
operation equal to the whole (empty) input: the final remainder is typed
only when lastIndex is strictly below the length. -/
theorem claim5_counterexample :
    simulateTyping "".data = some [] ∧
      simulateTyping "".data ≠ some [KeyOp.TypeLiteral ""] := by decide

/-- Claim C5 (amended): a directive without an opening brace has no match
of keyTapPattern, and every nonempty directive without a match yields
exactly one TypeLiteral operation whose text is the whole input, and no
press operation.  The empty directive yields no operation. -/
theorem claim5_amended :
    (∀ cs : List Char, lbrace ∉ cs → findAll cs = []) ∧
    (∀ cs : List Char, findAll cs = [] → cs ≠ [] →
      simulateTyping cs = some [KeyOp.TypeLiteral (⟨cs⟩ : String)]) := by
  constructor
  · intro cs h
    exact findAllAux_none h _ _
  · intro cs hf hne
    unfold simulateTyping
    rw [hf]
    unfold simAux
    rw [if_pos (by cases cs with
      | nil => exact absurd rfl hne
      | cons a t => simp), List.drop_zero]

theorem claim5_amended_witness :
    simulateTyping "cd ~".data = some [KeyOp.TypeLiteral (⟨"cd ~".data⟩ : String)] :=
  claim5_amended.2 "cd ~".data (claim5_amended.1 "cd ~".data (by decide)) (by decide)

/-- Claim C6: an unrecognized modifier name is dropped from the modifier
list without affecting the resolution of the names before and after it,
and synthesis of the remaining operations of the directive continues: on
a directive whose combo group carries the unknown modifier Foo, the key is
still pressed with the remaining recognized modifiers and the following
operations are still produced. -/
theorem claim6_unknown_modifier_dropped :
    (∀ (pre : List String) (bad : String) (post : List String),
        modifierMap bad = none →
        resolveModifiers (pre ++ bad :: post) =
          resolveModifiers pre ++ resolveModifiers post) ∧
    simulateTyping "{Command+Foo}+t xy".data =
      some [KeyOp.PressCombo ["command"] "t", KeyOp.PressCombo [] "shift",
        KeyOp.TypeLiteral "y"] := by
  constructor
  · intro pre bad post hbad
    induction pre with
    | nil => simp [resolveModifiers, hbad]
    | cons a t ih =>
        cases hma : modifierMap a with
        | none =>
            simp only [List.cons_append, resolveModifiers, hma, List.append_eq]
            exact ih
        | some k =>
            simp only [List.cons_append, resolveModifiers, hma, List.append_eq]
            rw [ih]
  · decide

theorem claim6_witness :
    resolveModifiers (["Command"] ++ "Foo" :: ["Shift"]) =
      resolveModifiers ["Command"] ++ resolveModifiers ["Shift"] :=
  claim6_unknown_modifier_dropped.1 ["Command"] "Foo" ["Shift"] (by decide)

/-- Claim C7: in every reachable state of the main loop, a capture tick
appends to the audio buffer only while listening (an idle tick leaves the
state completely unchanged), a listening tick appends exactly the
collected samples, and the buffer is empty immediately after every
Idle to Listening transition. -/
theorem claim7_buffer_invariant (tr : List CEvent) :
    (∀ samples, (runTrace tr).listening = false →
        controllerStep (runTrace tr) (CEvent.tick samples) = runTrace tr) ∧
    (∀ samples, (runTrace tr).listening = true →
        (controllerStep (runTrace tr) (CEvent.tick samples)).buffer =
          (runTrace tr).buffer ++ samples) ∧
    (∀ e, (runTrace tr).listening = false →
        (controllerStep (runTrace tr) e).listening = true →
        (controllerStep (runTrace tr) e).buffer = []) := by
  refine ⟨?_, ?_, ?_⟩
  · intro samples h
    simp [controllerStep, h]
  · intro samples h
    simp [controllerStep, h]
  · intro e h1 h2
    cases e with
    | toggle => simp [controllerStep, h1]
    | timerFire g => simp [controllerStep, h1] at h2
    | tick samples => simp [controllerStep, h1] at h2
    | tickErr => simp [controllerStep, h1] at h2

theorem claim7_witness :
    controllerStep (runTrace []) (CEvent.tick [1, 2]) = runTrace [] ∧
    (controllerStep (runTrace [CEvent.toggle, CEvent.tick [3]])
          (CEvent.tick [4])).buffer =
      (runTrace [CEvent.toggle, CEvent.tick [3]]).buffer ++ [4] ∧
    (controllerStep (runTrace []) CEvent.toggle).buffer = [] :=
  ⟨(claim7_buffer_invariant []).1 [1, 2] rfl,
   (claim7_buffer_invariant [CEvent.toggle, CEvent.tick [3]]).2.1 [4] rfl,
   (claim7_buffer_invariant []).2.2 CEvent.toggle rfl (by decide)⟩

theorem countL2I_zero_of_idle :
    ∀ (tr : List CEvent) (s : CState), s.listening = false → CEvent.toggle ∉ tr →
      countL2I s tr = 0 := by
  intro tr
  induction tr with
  | nil => intro s _ _; rfl
  | cons e rest ih =>
      intro s hs ht
      have hne : e ≠ CEvent.toggle := fun h => ht (by simp [h])
      have hnr : CEvent.toggle ∉ rest := fun h => ht (by simp [h])
      have hstep : (controllerStep s e).listening = false := by
        cases e with
        | toggle => exact absurd rfl hne
        | timerFire g => simp [controllerStep, hs]
        | tick samples => simp [controllerStep, hs]
        | tickErr => simpa [controllerStep] using hs
      unfold countL2I
      rw [ih _ hstep hnr]
      simp [hs]

theorem countL2I_one_of_timer :
    ∀ (tr : List CEvent) (s : CState), s.listening = true → CEvent.toggle ∉ tr →
      CEvent.timerFire s.timerGen ∈ tr → countL2I s tr = 1 := by
  intro tr
  induction tr with
  | nil => intro s _ _ hmem; cases hmem
  | cons e rest ih =>
      intro s hs ht hmem
      have hne : e ≠ CEvent.toggle := fun h => ht (by simp [h])
      have hnr : CEvent.toggle ∉ rest := fun h => ht (by simp [h])
      by_cases hfire : e = CEvent.timerFire s.timerGen
      · subst hfire
        have hstep : controllerStep s (CEvent.timerFire s.timerGen) =
            { s with listening := false } := by
          simp [controllerStep, hs]
        unfold countL2I
        rw [hstep, countL2I_zero_of_idle rest _ rfl hnr]
        simp [hs]
      · have hmem2 : CEvent.timerFire s.timerGen ∈ rest := by
          rcases List.mem_cons.mp hmem with h | h
          · exact absurd h.symm hfire
          · exact h
        cases e with
        | toggle => exact absurd rfl hne
        | timerFire g =>
            have hg : g ≠ s.timerGen := fun h => hfire (by rw [h])
            have hstep : controllerStep s (CEvent.timerFire g) = s := by
              simp [controllerStep, hg]
            unfold countL2I
            rw [hstep, ih s hs hnr hmem2]
            simp [hs]
        | tick samples =>
            have h1 : (controllerStep s (CEvent.tick samples)).listening = true := by
              simp [controllerStep, hs]
            have h2 : (controllerStep s (CEvent.tick samples)).timerGen = s.timerGen := by
              simp [controllerStep, hs]
            unfold countL2I
            rw [ih _ h1 hnr (by rw [h2]; exact hmem2)]
            simp [h1]
        | tickErr =>
            have hstep : controllerStep s CEvent.tickErr = s := rfl
            unfold countL2I
            rw [hstep, ih s hs hnr hmem2]
            simp [hs]

/-- Claim C8: the inactivity timeout is 30 seconds; from any listening
state, a toggle-free trace containing the fire of the currently armed
timer performs exactly one Listening to Idle transition; a fire of a timer
armed in an earlier cycle (any generation other than the current one) is
never observed by the loop and changes nothing; and a timer fire while
idle causes no transition. -/
theorem claim8_inactivity_timer :
    DefaultTimeout = 30 * timeSecond ∧
    (∀ (s : CState) (tr : List CEvent), s.listening = true →
        CEvent.toggle ∉ tr → CEvent.timerFire s.timerGen ∈ tr →
        countL2I s tr = 1) ∧
    (∀ (s : CState) (g : Nat), g ≠ s.timerGen →
        controllerStep s (CEvent.timerFire g) = s) ∧
    (∀ (s : CState) (g : Nat), s.listening = false →
        controllerStep s (CEvent.timerFire g) = s) := by
  refine ⟨rfl, fun s tr h1 h2 h3 => countL2I_one_of_timer tr s h1 h2 h3, ?_, ?_⟩
  · intro s g hg
    simp [controllerStep, hg]
  · intro s g hl
    simp [controllerStep, hl]

theorem claim8_witness :
    countL2I ⟨true, 5, []⟩
        [CEvent.tick [1], CEvent.timerFire 5, CEvent.tickErr] = 1 ∧
    controllerStep ⟨true, 5, [2]⟩ (CEvent.timerFire 4) = ⟨true, 5, [2]⟩ ∧
    controllerStep ⟨false, 5, [2]⟩ (CEvent.timerFire 5) = ⟨false, 5, [2]⟩ :=
  ⟨claim8_inactivity_timer.2.1 ⟨true, 5, []⟩ _ rfl (by decide) (by decide),
   claim8_inactivity_timer.2.2.1 ⟨true, 5, [2]⟩ 4 (by decide),
   claim8_inactivity_timer.2.2.2 ⟨false, 5, [2]⟩ 5 rfl⟩

theorem appendExamples_eq (es : List FewShotExample) :
    ∀ msgs, appendExamples msgs es = msgs ++ examplePairs es := by
  induction es with
  | nil => intro msgs; simp [appendExamples, examplePairs]
  | cons e rest ih =>
      intro msgs
      simp only [appendExamples, examplePairs]
      rw [ih]
      simp

theorem appendProgramExamples_eq (activeApp : String)
    (ps : List ProgramFewShotExamples) :
    ∀ msgs, appendProgramExamples activeApp msgs ps =
      msgs ++ specFewShot activeApp ps := by
  induction ps with
  | nil => intro msgs; simp [appendProgramExamples, specFewShot]
  | cons p rest ih =>
      intro msgs
      by_cases hp : p.program = activeApp
      · simp only [appendProgramExamples, specFewShot, if_pos hp]
        rw [if_neg (show ¬p.program ≠ activeApp by simp [hp])]
        rw [appendExamples_eq, ih]
        simp
      · simp only [appendProgramExamples, specFewShot]
        rw [if_pos (show p.program ≠ activeApp from hp), if_neg hp]
        exact ih msgs

/-- Claim C9: the message sequence handleText sends to the language model
is exactly one system instruction parameterized by the active application
name, then the ordered few-shot input/output pairs of the configured
programs whose name equals the active application name under
case-sensitive exact comparison (zero pairs when none matches), then the
transcribed text as the final user message. -/
theorem claim9_message_sequence (programs : List ProgramFewShotExamples)
    (activeApp text : String) :
    buildMessages programs activeApp text = specMessages programs activeApp text := by
  unfold buildMessages specMessages
  rw [appendProgramExamples_eq]
  simp

/-- Claim C10: for a combo group with no trailing key whose last
brace-internal name is not in the recognized table, the key of the
emitted press is the empty string (the Go map read yields the zero value),
not the literal unrecognized name, and synthesis does not fail: the
directive consisting only of the group Foo synthesizes a press of the
empty key followed by the unconditional shift press. -/
theorem claim10_unrecognized_last_name :
    (∀ (cs : List Char) (m : RMatch), m.g2 = none →
        modifierMap ((modNames cs m).getLastD "") = none →
        (extractModifiersAndKeyFromMatch cs m).2 = "") ∧
    simulateTyping "{Foo}".data =
      some [KeyOp.PressCombo [] "", KeyOp.PressCombo [] "shift"] := by
  constructor
  · intro cs m hg2 hmap
    unfold extractModifiersAndKeyFromMatch
    rw [hg2]
    show modifierMapD ((modNames cs m).getLastD "") = ""
    unfold modifierMapD
    rw [hmap]
    rfl
  · decide

theorem claim10_witness :
    (extractModifiersAndKeyFromMatch "{Foo}".data ⟨0, 5, 1, 4, none⟩).2 = "" :=
  claim10_unrecognized_last_name.1 "{Foo}".data ⟨0, 5, 1, 4, none⟩ rfl (by decide)

/- Evaluation of the embedded pattern on a structurally given combo group:
the directive starts with an opening brace, the brace-internal text, the
closing brace, and an arbitrary continuation. -/

theorem inner_run (inner tail : List Char) (hnb : rbrace ∉ inner) :
    (inner ++ rbrace :: tail).takeWhile (fun d => !(d == rbrace)) = inner := by
  rw [takeWhile_append_all inner (rbrace :: tail)
    (fun a ha => by simp [show a ≠ rbrace from fun h => hnb (h ▸ ha)])]
  simp [List.takeWhile]

theorem drop_after_close (inner tail : List Char) :
    (lbrace :: inner ++ rbrace :: tail).drop (inner.length + 2) = tail := by
  have h1 : (lbrace :: inner ++ rbrace :: tail).drop (inner.length + 2) =
      (inner ++ rbrace :: tail).drop (inner.length + 1) := by
    rw [show inner.length + 2 = (inner.length + 1) + 1 by omega]
    exact List.drop_succ_cons
  rw [h1]
  exact drop_len_append inner (rbrace :: tail) 1

theorem slice_inner (inner tail : List Char) :
    sliceCL (lbrace :: inner ++ rbrace :: tail) 1 (inner.length + 1) = inner := by
  unfold sliceCL
  show (inner ++ rbrace :: tail).take (inner.length + 1 - 1) = inner
  rw [Nat.add_sub_cancel]
  exact take_len_append inner (rbrace :: tail)

theorem slice_from_drop (cs : List Char) (a : Nat) (key rest : List Char)
    (h : cs.drop a = key ++ rest) :
    sliceCL cs a (a + key.length) = key := by
  unfold sliceCL
  rw [h, Nat.add_sub_cancel_left]
  exact take_len_append key rest

theorem matchAt_structured (inner tail : List Char) (hinner : inner ≠ [])
    (hnb : rbrace ∉ inner) :
    matchAt (lbrace :: inner ++ rbrace :: tail) 0 =
      some (matchEnd (lbrace :: inner ++ rbrace :: tail) 0 (inner.length + 1)) := by
  unfold matchAt
  split
  next c t hc =>
    rw [List.drop_zero] at hc
    injection hc with h1 h2
    rw [if_pos h1.symm]
    rw [show (lbrace :: inner ++ rbrace :: tail).drop (0 + 1) = inner ++ rbrace :: tail
        from rfl]
    rw [inner_run inner tail hnb]
    rw [if_neg (by simp [hinner])]
    rw [if_pos (by simp only [List.length_cons, List.length_append]; omega)]
    rw [show 0 + 1 + inner.length = inner.length + 1 by omega]
  next hc =>
    rw [List.drop_zero] at hc
    cases hc

theorem matchEnd_g1 (cs : List Char) (i j : Nat) :
    (matchEnd cs i j).g1s = i + 1 ∧ (matchEnd cs i j).g1e = j := by
  unfold matchEnd
  split
  next d t hd =>
    by_cases hp : d = '+'
    · rw [if_pos hp]
      by_cases h0 : ((cs.drop (j + 2)).takeWhile isKeyChar).length = 0
      · rw [if_pos h0]
        exact ⟨rfl, rfl⟩
      · rw [if_neg h0]
        split
        next c2 t2 hc2 =>
          by_cases hsp : isSepChar c2 = true
          · rw [if_pos hsp]
            exact ⟨rfl, rfl⟩
          · rw [if_neg hsp]
            exact ⟨rfl, rfl⟩
        next => exact ⟨rfl, rfl⟩
    · rw [if_neg hp]
      by_cases hsp : isSepChar d = true
      · rw [if_pos hsp]
        exact ⟨rfl, rfl⟩
      · rw [if_neg hsp]
        exact ⟨rfl, rfl⟩
  next => exact ⟨rfl, rfl⟩

theorem matchEnd_key (cs : List Char) (i j : Nat) (key rest : List Char)
    (hdrop : cs.drop (j + 1) = '+' :: (key ++ rest))
    (hkey : key ≠ []) (hkc : ∀ c ∈ key, isKeyChar c = true)
    (hrest : ∀ c, rest.head? = some c → isKeyChar c = false) :
    (matchEnd cs i j).g2 = some (j + 2, j + 2 + key.length) := by
  have hdrop2 : cs.drop (j + 2) = key ++ rest := by
    have h := List.drop_drop 1 (j + 1) cs
    rw [show j + 2 = j + 1 + 1 by omega, ← h, hdrop]
    rfl
  have hrun : (cs.drop (j + 2)).takeWhile isKeyChar = key := by
    rw [hdrop2, takeWhile_append_all key rest hkc]
    cases rest with
    | nil => simp
    | cons c r =>
        have hc : isKeyChar c = false := hrest c rfl
        simp [List.takeWhile, hc]
  unfold matchEnd
  split
  next d t hd =>
    rw [hdrop] at hd
    injection hd with h1 h2
    rw [if_pos h1.symm]
    rw [hrun]
    rw [if_neg (by simp [hkey])]
    split
    next c2 t2 hc2 =>
      by_cases hsp : isSepChar c2 = true
      · rw [if_pos hsp]
      · rw [if_neg hsp]
    next => rfl
  next hd =>
    rw [hdrop] at hd
    cases hd

theorem matchEnd_g2_none (cs : List Char) (i j : Nat) (tail : List Char)
    (hdrop : cs.drop (j + 1) = tail)
    (htail : ∀ c r, tail = '+' :: c :: r → isKeyChar c = false) :
    (matchEnd cs i j).g2 = none := by
  have hdrop2 : cs.drop (j + 2) = tail.drop 1 := by
    have h := List.drop_drop 1 (j + 1) cs
    rw [show j + 2 = j + 1 + 1 by omega, ← h, hdrop]
  unfold matchEnd
  split
  next d t hd =>
    rw [hdrop] at hd
    by_cases hp : d = '+'
    · rw [if_pos hp]
      have hrun : ((cs.drop (j + 2)).takeWhile isKeyChar).length = 0 := by
        rw [hdrop2, hd]
        cases t with
        | nil => rfl
        | cons c r2 =>
            have hc : isKeyChar c = false := htail c r2 (by rw [hd, hp])
            simp [List.takeWhile, hc]
      rw [if_pos hrun]
    · rw [if_neg hp]
      by_cases hsp : isSepChar d = true
      · rw [if_pos hsp]
      · rw [if_neg hsp]
  next hd => rfl

theorem extract_of_g2_some (cs : List Char) (m : RMatch) (a b : Nat)
    (h : m.g2 = some (a, b)) :
    extractModifiersAndKeyFromMatch cs m =
      (resolveModifiers (modNames cs m), (⟨sliceCL cs a b⟩ : String)) := by
  unfold extractModifiersAndKeyFromMatch
  rw [h]

theorem extract_of_g2_none (cs : List Char) (m : RMatch) (h : m.g2 = none) :
    extractModifiersAndKeyFromMatch cs m =
      (resolveModifiers (modNames cs m).dropLast,
        modifierMapD ((modNames cs m).getLastD "")) := by
  unfold extractModifiersAndKeyFromMatch
  rw [h]

theorem modNames_matchEnd (inner tail : List Char) :
    modNames (lbrace :: inner ++ rbrace :: tail)
        (matchEnd (lbrace :: inner ++ rbrace :: tail) 0 (inner.length + 1)) =
      (inner.splitOn '+').map (fun l => (⟨l⟩ : String)) := by
  unfold modNames
  obtain ⟨h1, h2⟩ :=
    matchEnd_g1 (lbrace :: inner ++ rbrace :: tail) 0 (inner.length + 1)
  rw [h1, h2]
  rw [show (0 : Nat) + 1 = 1 from rfl]
  rw [slice_inner inner tail]

/-- Claim C3 counterexample: the claim admits every digit in the bare key
name, but the key-group class of keyTapPattern is A-Za-z1-9, which
excludes the digit 0: on the directive whose combo group has the explicit
trailing key 0, the pattern captures no key group at all, the
brace-internal name Command is mapped and used as the key of the press
(not 0), and the 0 is later typed as leftover literal text. -/
theorem claim3_counterexample :
    (matchAt "{Command}+0".data 0).map
        (fun m => (m.g2, extractModifiersAndKeyFromMatch "{Command}+0".data m)) =
      some (none, ([], "command")) ∧
    simulateTyping "{Command}+0".data =
      some [KeyOp.PressCombo [] "command", KeyOp.PressCombo [] "shift",
        KeyOp.TypeLiteral "0"] ∧
    ("command" : String) ≠ "0" := by decide

/-- Claim C3 (amended): for every well-formed combo group with an explicit
trailing key name consisting of ASCII letters and digits 1 through 9 (the
class of keyTapPattern, which excludes the digit 0), followed by any
continuation that does not extend the key run, the lexer captures exactly
that name as the key, and every brace-internal name is treated as a
modifier only (the whole brace-internal list goes through modifier
resolution and no part of it becomes the key). -/
theorem claim3_amended (inner key rest : List Char)
    (hinner : inner ≠ []) (hnb : rbrace ∉ inner)
    (hkey : key ≠ []) (hkc : ∀ c ∈ key, isKeyChar c = true)
    (hrest : ∀ c, rest.head? = some c → isKeyChar c = false) :
    (matchAt (lbrace :: inner ++ rbrace :: ('+' :: (key ++ rest))) 0).map
        (fun m => (m.g2, extractModifiersAndKeyFromMatch
            (lbrace :: inner ++ rbrace :: ('+' :: (key ++ rest))) m)) =
      some (some (inner.length + 3, inner.length + 3 + key.length),
        (resolveModifiers ((inner.splitOn '+').map (fun l => (⟨l⟩ : String))),
          (⟨key⟩ : String))) := by
  rw [matchAt_structured inner ('+' :: (key ++ rest)) hinner hnb]
  have hdrop : (lbrace :: inner ++ rbrace :: ('+' :: (key ++ rest))).drop
      (inner.length + 1 + 1) = '+' :: (key ++ rest) := by
    rw [show inner.length + 1 + 1 = inner.length + 2 by omega]
    exact drop_after_close inner ('+' :: (key ++ rest))
  have hg2 := matchEnd_key (lbrace :: inner ++ rbrace :: ('+' :: (key ++ rest))) 0
    (inner.length + 1) key rest hdrop hkey hkc hrest
  have hdrop2 : (lbrace :: inner ++ rbrace :: ('+' :: (key ++ rest))).drop
      (inner.length + 1 + 2) = key ++ rest := by
    have h := List.drop_drop 1 (inner.length + 1 + 1)
      (lbrace :: inner ++ rbrace :: ('+' :: (key ++ rest)))
    rw [show inner.length + 1 + 2 = inner.length + 1 + 1 + 1 by omega, ← h, hdrop]
    rfl
  simp only [Option.map_some']
  rw [extract_of_g2_some _ _ (inner.length + 1 + 2)
    (inner.length + 1 + 2 + key.length) hg2]
  rw [hg2, modNames_matchEnd inner ('+' :: (key ++ rest))]
  rw [slice_from_drop _ (inner.length + 1 + 2) key rest hdrop2]

theorem claim3_amended_witness :
    (matchAt (lbrace :: "Command".data ++ rbrace :: ('+' :: ("t".data ++ []))) 0).map
        (fun m => (m.g2, extractModifiersAndKeyFromMatch
            (lbrace :: "Command".data ++ rbrace :: ('+' :: ("t".data ++ []))) m)) =
      some (some ("Command".data.length + 3,
          "Command".data.length + 3 + "t".data.length),
        (resolveModifiers (("Command".data.splitOn '+').map
            (fun l => (⟨l⟩ : String))),
          (⟨"t".data⟩ : String))) :=
  claim3_amended "Command".data "t".data [] (by decide) (by decide) (by decide)
    (by decide) (fun c h => by cases h)

/-- Claim C4: for every well-formed combo group with no trailing key
group (the continuation after the closing brace does not begin with a
plus followed by a key-class character), the last brace-internal name is
removed before modifier resolution (so it is never in the modifier list of
the press) and its image under the recognized-name table becomes the key
of the press; in particular a recognized last name such as Shift is
pressed under its mapped literal key name. -/
theorem claim4_last_name_is_key (inner tail : List Char)
    (hinner : inner ≠ []) (hnb : rbrace ∉ inner)
    (htail : ∀ c r, tail = '+' :: c :: r → isKeyChar c = false) :
    (matchAt (lbrace :: inner ++ rbrace :: tail) 0).map
        (fun m => (m.g2, extractModifiersAndKeyFromMatch
            (lbrace :: inner ++ rbrace :: tail) m)) =
      some (none,
        (resolveModifiers
            (((inner.splitOn '+').map (fun l => (⟨l⟩ : String))).dropLast),
          modifierMapD
            (((inner.splitOn '+').map (fun l => (⟨l⟩ : String))).getLastD ""))) := by
  rw [matchAt_structured inner tail hinner hnb]
  have hdrop : (lbrace :: inner ++ rbrace :: tail).drop (inner.length + 1 + 1) =
      tail := by
    rw [show inner.length + 1 + 1 = inner.length + 2 by omega]
    exact drop_after_close inner tail
  have hg2 := matchEnd_g2_none (lbrace :: inner ++ rbrace :: tail) 0
    (inner.length + 1) tail hdrop htail
  simp only [Option.map_some']
  rw [extract_of_g2_none _ _ hg2, hg2, modNames_matchEnd inner tail]

theorem claim4_witness :
    (matchAt (lbrace :: "Command+Shift".data ++ rbrace :: []) 0).map
        (fun m => (m.g2, extractModifiersAndKeyFromMatch
            (lbrace :: "Command+Shift".data ++ rbrace :: []) m)) =
      some (none,
        (resolveModifiers
            ((("Command+Shift".data.splitOn '+').map
              (fun l => (⟨l⟩ : String))).dropLast),
          modifierMapD
            ((("Command+Shift".data.splitOn '+').map
              (fun l => (⟨l⟩ : String))).getLastD ""))) :=
  claim4_last_name_is_key "Command+Shift".data [] (by decide) (by decide)
    (fun c r h => by cases h)
